import Mathlib

/-!
Verification of the corpus-rag-skeleton retrieval pipeline
(`src/skeleton_core/vector_store.py` and `src/skeleton_core/app.py`)
against its natural-language specification.

Texts are modelled as `List Char` (Python strings are sequences of code
points), integers as `Int`/`Nat`, and dictionaries as association lists
with Python literal-merge semantics.  The ChromaDB collection is
modelled as a list of stored records; nontermination of the unguarded
chunking loop is captured by a fuel-indexed loop returning `Option`.
-/

namespace RagSkeleton

/-- Python `str.isspace`-style whitespace test used by `str.strip()`. -/
def pyIsSpace (c : Char) : Bool := c.isWhitespace

/-- Python `s.strip()`: drop leading and trailing whitespace. -/
def pyStrip (s : List Char) : List Char :=
  ((s.dropWhile pyIsSpace).reverse.dropWhile pyIsSpace).reverse

/-- Effective index of a Python slice bound `i` on a sequence of length
`len`: negative indices count from the end (clamped below at 0),
non-negative ones are clamped above at `len`. -/
def pySliceIdx (len : Nat) (i : Int) : Nat :=
  if i < 0 then ((len : Int) + i).toNat else min i.toNat len

/-- Python `s[i:j]` on a character list. -/
def pySlice (s : List Char) (i j : Int) : List Char :=
  (s.take (pySliceIdx s.length j)).drop (pySliceIdx s.length i)

/-- The `while start < text_length` loop of `VectorStore.chunk_text`
(`vector_store.py` lines 56-66), indexed by fuel.  Each iteration takes
the window `text[start:start+chunk_size]`, strips it, appends it
unconditionally, and advances `start` by `chunk_size - overlap`.
`none` means the fuel ran out with the loop guard still true. -/
def chunkTextGo (text : List Char) (csize ov : Int) : Int → Nat → Option (List (List Char))
  | start, 0 => if start < (text.length : Int) then none else some []
  | start, fuel + 1 =>
      if start < (text.length : Int) then
        match chunkTextGo text csize ov (start + (csize - ov)) fuel with
        | none => none
        | some rest => some (pyStrip (pySlice text start (start + csize)) :: rest)
      else some []

/-- `VectorStore.chunk_text` with explicit `chunk_size`/`overlap`.
Fuel `text.length + 1` is sufficient whenever the loop terminates at
all (the start offset must advance by at least one character per
iteration to terminate), so `none` faithfully marks the diverging
configurations. -/
def chunk_text (text : List Char) (csize ov : Int) : Option (List (List Char)) :=
  chunkTextGo text csize ov 0 (text.length + 1)

example : chunk_text "hello".toList 5 1 = some ["hello".toList, "o".toList] := by decide
example : chunk_text [] 5 1 = some [] := by decide
example : chunk_text "   ".toList 2 1 = some [[], [], []] := by decide
example : chunk_text "ab".toList 1 1 = none := by decide

/-- Python `x or default` on an optional integer argument: `None` and
`0` are both falsy, so either is replaced by the default
(`vector_store.py` lines 52-54). -/
def pyOrInt (arg : Option Int) (dflt : Int) : Int :=
  match arg with
  | none => dflt
  | some v => if v = 0 then dflt else v

/-- `VectorStore.chunk_text` as called as a method: optional
`chunk_size`/`overlap` arguments defaulted by truthiness against the
instance configuration. -/
def chunk_text_method (selfCsize selfOv : Int) (text : List Char)
    (csizeArg ovArg : Option Int) : Option (List (List Char)) :=
  chunk_text text (pyOrInt csizeArg selfCsize) (pyOrInt ovArg selfOv)

/-- A metadata value: Python values stored in chunk metadata are strings
or integers here. -/
inductive MetaVal where
  | str (s : String)
  | int (n : Int)
deriving DecidableEq

/-- A Python dict as an ordered association list (each key occurs at
most once, by construction). -/
abbrev Meta := List (String × MetaVal)

/-- Python `d[k]` / `d.get(k)`: first binding of the key, if any. -/
def metaLookup (m : Meta) (k : String) : Option MetaVal :=
  (m.find? (fun p => p.1 = k)).map (fun p => p.2)

/-- One key-value pair of a Python dict literal `... , k: v` merged
after `m`: overrides the existing binding in place, else appends. -/
def dictSet (m : Meta) (k : String) (v : MetaVal) : Meta :=
  match m with
  | [] => [(k, v)]
  | p :: rest => if p.1 = k then (k, v) :: rest else p :: dictSet rest k v

/-- The metadata dict built for one stored chunk
(`vector_store.py` lines 121-126): caller-supplied base metadata
(`metadata or \x7b\x7d`) with `chunk_index`, `source`, `page` merged
last. -/
def mkChunkMeta (base : Option Meta) (chunkCounter : Int) (docId : String)
    (pageNum : Int) : Meta :=
  dictSet (dictSet (dictSet (base.getD []) "chunk_index" (.int chunkCounter))
    "source" (.str docId)) "page" (.int pageNum)

/-- One stored chunk: the tuple ChromaDB's `collection.add` receives. -/
structure Record where
  id : String
  embedding : List Int
  document : List Char
  metadata : Meta
deriving DecidableEq

/-- One element of `file_data`: a page's extracted text and number. -/
structure PageData where
  text : List Char
  page : Int
deriving DecidableEq

/-- The chunk id f-string f"(document_id)_p(page_num)_(i)". -/
def chunkId (docId : String) (pageNum : Int) (i : Nat) : String :=
  docId ++ "_p" ++ toString pageNum ++ "_" ++ toString i

/-- The inner `for i, chunk in enumerate(chunks)` loop of
`ingest_document` (`vector_store.py` lines 110-127): skip empty chunks,
skip chunks whose embedding is falsy, otherwise build the record and
bump the global chunk counter.  `i` enumerates all chunks, including
skipped ones; the counter counts only stored ones. -/
def pageRecords (emb : List Char → List Int) (docId : String) (base : Option Meta)
    (pageNum : Int) : List (List Char) → Nat → Int → List Record × Int
  | [], _, counter => ([], counter)
  | c :: rest, i, counter =>
    if c = [] then pageRecords emb docId base pageNum rest (i + 1) counter
    else if emb c = [] then pageRecords emb docId base pageNum rest (i + 1) counter
    else
      let r : Record := ⟨chunkId docId pageNum i, emb c, c, mkChunkMeta base counter docId pageNum⟩
      let rec2 := pageRecords emb docId base pageNum rest (i + 1) (counter + 1)
      (r :: rec2.1, rec2.2)

/-- The outer `for page_data in file_data` loop of `ingest_document`:
chunk each page and accumulate records; `none` if chunking diverges. -/
def ingestLoop (emb : List Char → List Int) (csize ov : Int) (docId : String)
    (base : Option Meta) : List PageData → Int → Option (List Record × Int)
  | [], counter => some ([], counter)
  | p :: rest, counter =>
    match chunk_text p.text csize ov with
    | none => none
    | some chunks =>
      let rec1 := pageRecords emb docId base p.page chunks 0 counter
      match ingestLoop emb csize ov docId base rest rec1.2 with
      | none => none
      | some rec2 => some (rec1.1 ++ rec2.1, rec2.2)

/-- `VectorStore.ingest_document` (`vector_store.py` lines 85-141) over
an explicit store state: batch-add the collected records only when the
id list is non-empty, and return `len(ids)` together with the new
store. -/
def ingest_document (emb : List Char → List Int) (csize ov : Int)
    (store : List Record) (fileData : List PageData) (docId : String)
    (base : Option Meta) : Option (Nat × List Record) :=
  match ingestLoop emb csize ov docId base fileData 0 with
  | none => none
  | some recs => if recs.1 = [] then some (0, store) else some (recs.1.length, store ++ recs.1)

/-- ChromaDB `collection.get(where={"source": source})`: the records
whose metadata `source` field equals the given string. -/
def collGetBySource (store : List Record) (src : String) : List Record :=
  store.filter (fun r => metaLookup r.metadata "source" = some (.str src))

/-- ChromaDB `collection.delete(ids=...)`: drop every record whose id
is in the list. -/
def collDeleteIds (store : List Record) (ids : List String) : List Record :=
  store.filter (fun r => ¬ r.id ∈ ids)

/-- `VectorStore.delete_document` (`vector_store.py` lines 223-242)
over an explicit store state: returns the count removed and the new
store. -/
def delete_document (store : List Record) (src : String) : Nat × List Record :=
  let ids := (collGetBySource store src).map (fun r => r.id)
  if ids = [] then (0, store) else (ids.length, collDeleteIds store ids)

/-- `metadata.get('source', 'unknown')` in `list_documents`. -/
def sourceKey (m : Meta) : MetaVal := (metaLookup m "source").getD (.str "unknown")

/-- `metadata.get('page', 1)` in `list_documents`. -/
def pageKey (m : Meta) : MetaVal := (metaLookup m "page").getD (.int 1)

/-- One entry of the `list_documents` output. -/
structure DocSummary where
  source : MetaVal
  pages : Nat
  chunks : Nat
deriving DecidableEq

/-- The comparison used by `sorted(result, key=lambda x: x['source'])`
restricted to comparable values (like-kind values compare by their
natural order). -/
def metaValLe : MetaVal → MetaVal → Bool
  | .str a, .str b => a ≤ b
  | .int a, .int b => a ≤ b
  | .int _, .str _ => true
  | .str _, .int _ => false

/-- `VectorStore.list_documents` (`vector_store.py` lines 186-221):
group all stored metadata by `source`, count distinct pages and total
chunks per source, and sort by source. -/
def list_documents (store : List Record) : List DocSummary :=
  let metas := store.map (fun r => r.metadata)
  let keys := (metas.map sourceKey).dedup
  let summaries := keys.map (fun k =>
    let group := metas.filter (fun m => sourceKey m = k)
    DocSummary.mk k (group.map pageKey).dedup.length group.length)
  summaries.mergeSort (fun a b => metaValLe a.source b.source)

/-- One formatted search match (`vector_store.py` lines 174-184):
text, metadata and cosine distance. -/
structure MatchR where
  text : List Char
  metadata : Meta
  distance : ℚ
deriving DecidableEq

/-- ChromaDB `collection.query`: rank the records of the store by
ascending distance to the query (the distance function stands for the
cosine distance to the embedded query) and keep the first `n`. -/
def collQuery (dist : Record → ℚ) (store : List Record) (n : Nat) :
    List (Record × ℚ) :=
  ((store.map (fun r => (r, dist r))).mergeSort (fun a b => a.2 ≤ b.2)).take n

/-- `VectorStore.search` (`vector_store.py` lines 143-184): apply the
optional source allow-list (skipped when falsy, i.e. absent or empty),
query, and format the matches. -/
def search (dist : Record → ℚ) (store : List Record) (n : Nat)
    (filterSources : Option (List String)) : List MatchR :=
  let base := match filterSources with
    | none => store
    | some srcs =>
      if srcs = [] then store
      else store.filter (fun r =>
        match metaLookup r.metadata "source" with
        | some (.str s) => srcs.contains s
        | _ => false)
  (collQuery dist base n).map (fun p => MatchR.mk p.1.document p.1.metadata p.2)

/-- The relevance post-filter of the `chat` route (`app.py` lines
164-171): when the result list is non-empty, keep only the results
within `threshold` of the first (best) result's distance; an empty
list is left untouched. -/
def chatFilter (rs : List MatchR) (threshold : ℚ) : List MatchR :=
  match rs with
  | [] => []
  | best :: rest => (best :: rest).filter (fun r => r.distance ≤ best.distance + threshold)

/-- `context_text = "\n\n".join([r['text'] for r in context_results])`
(`app.py` line 173). -/
def context_text (rs : List MatchR) : List Char :=
  List.intercalate ['\n', '\n'] (rs.map (fun r => r.text))

/-- Template text before the system prompt in the chat f-string
(`app.py` lines 177-187). -/
def promptPrefix : List Char := "\n        INSTRUCTIONS: ".toList

/-- Template text between the system prompt and the context. -/
def promptMid1 : List Char :=
  "\n        \n        CONTEXT INFORMATION (Use this to answer):\n        ".toList

/-- Template text between the context and the user question. -/
def promptMid2 : List Char := "\n        \n        USER QUESTION:\n        ".toList

/-- Template text after the user question. -/
def promptSuffix : List Char := "\n        \n        ANSWER:\n        ".toList

/-- The assembled chat prompt (`app.py` lines 177-187). -/
def full_prompt (sys ctx q : List Char) : List Char :=
  promptPrefix ++ sys ++ promptMid1 ++ ctx ++ promptMid2 ++ q ++ promptSuffix

/-! ### Helper lemmas for the chunking loop -/

/-- With a positive advance, fuel at least the remaining length makes
the chunking loop run to completion. -/
theorem chunkTextGo_isSome (text : List Char) (csize ov : Int)
    (hpos : 0 < csize - ov) :
    ∀ (fuel : Nat) (start : Int), (text.length : Int) - start ≤ (fuel : Int) →
      (chunkTextGo text csize ov start fuel).isSome := by
  intro fuel
  induction fuel with
  | zero =>
    intro start hle
    have hge : ¬ start < (text.length : Int) := by
      simp only [Nat.cast_zero] at hle
      omega
    simp [chunkTextGo, hge]
  | succ n ih =>
    intro start hle
    by_cases hlt : start < (text.length : Int)
    · have hrec := ih (start + (csize - ov)) (by push_cast at hle ⊢; omega)
      simp only [chunkTextGo, if_pos hlt]
      cases hgo : chunkTextGo text csize ov (start + (csize - ov)) n with
      | none => rw [hgo] at hrec; simp at hrec
      | some rest => simp
    · simp [chunkTextGo, hlt]

/-- With a non-positive advance, the loop guard stays true forever:
every fuel bound is exhausted. -/
theorem chunkTextGo_none (text : List Char) (csize ov : Int)
    (hov : csize - ov ≤ 0) :
    ∀ (fuel : Nat) (start : Int), start < (text.length : Int) →
      chunkTextGo text csize ov start fuel = none := by
  intro fuel
  induction fuel with
  | zero => intro start h; simp [chunkTextGo, h]
  | succ n ih =>
    intro start h
    have h2 : start + (csize - ov) < (text.length : Int) := by omega
    simp [chunkTextGo, h, ih (start + (csize - ov)) h2]

/-! ### Claim theorems -/

/-- C3: for positive `chunk_size` and `overlap` with
`overlap < chunk_size` the chunking loop terminates; when
`overlap >= chunk_size` the start offset never advances, and on
non-empty text the loop never terminates at any fuel bound. -/
theorem chunking_termination (text : List Char) (csize ov : Int) :
    (0 < csize → 0 < ov → ov < csize → (chunk_text text csize ov).isSome) ∧
    (csize ≤ ov →
      (∀ start : Int, start + (csize - ov) ≤ start) ∧
      (text ≠ [] → ∀ fuel : Nat, chunkTextGo text csize ov 0 fuel = none)) := by
  constructor
  · intro _ _ h2
    exact chunkTextGo_isSome text csize ov (by omega) (text.length + 1) 0 (by push_cast; omega)
  · intro hov
    refine ⟨fun start => by omega, fun hne fuel => ?_⟩
    have hpos : 0 < text.length := List.length_pos.mpr hne
    exact chunkTextGo_none text csize ov (by omega) fuel 0 (by exact_mod_cast hpos)

/-- Witness for C3 at concrete configurations: `(2, 1)` terminates on
`"ab"`, while `(1, 2)` exhausts any fuel on the same text. -/
theorem chunking_termination_witness :
    (chunk_text ['a', 'b'] 2 1).isSome ∧
    chunkTextGo ['a', 'b'] 1 2 0 5 = none :=
  ⟨(chunking_termination ['a', 'b'] 2 1).1 (by decide) (by decide) (by decide),
   ((chunking_termination ['a', 'b'] 1 2).2 (by decide)).2 (by decide) 5⟩

/-- C1 (relevance post-filter): for a non-empty result list with best
distance `d` and threshold `t`, a result is kept by the post-filter
exactly when its distance is at most `d + t` (boundary inclusive). -/
theorem chat_relevance_filter_boundary (rs : List MatchR) (t : ℚ) (h : rs ≠ []) :
    ∀ r ∈ rs, (r ∈ chatFilter rs t ↔ r.distance ≤ (rs.head h).distance + t) := by
  match rs with
  | best :: rest =>
    intro r hr
    simp only [chatFilter, List.head_cons, List.mem_filter, decide_eq_true_eq]
    exact ⟨fun hmem => hmem.2, fun hd => ⟨hr, hd⟩⟩

/-- A search match at distance 0. -/
def matchNear : MatchR := MatchR.mk ['a'] [] 0

/-- A search match at distance 1. -/
def matchFar : MatchR := MatchR.mk ['b'] [] 1

/-- Witness for C1: with best distance 0 and threshold 1, the match at
distance exactly 1 sits on the boundary and is kept. -/
theorem chat_relevance_filter_boundary_witness :
    matchFar ∈ chatFilter [matchNear, matchFar] 1 ↔
      matchFar.distance ≤ (([matchNear, matchFar]).head (by decide)).distance + 1 :=
  chat_relevance_filter_boundary [matchNear, matchFar] 1 (by decide) matchFar (by decide)

/-- C7: a query against an empty store yields no matches, the
relevance filter leaves the (empty) result list untouched, the joined
context text is empty, and the assembled prompt is still the full
template around an empty context section. -/
theorem empty_store_chat (dist : Record → ℚ) (n : Nat)
    (fs : Option (List String)) (t : ℚ) (sys q : List Char) :
    search dist [] n fs = [] ∧
    chatFilter (search dist [] n fs) t = search dist [] n fs ∧
    context_text (chatFilter (search dist [] n fs) t) = [] ∧
    full_prompt sys (context_text (chatFilter (search dist [] n fs) t)) q =
      promptPrefix ++ sys ++ (promptMid1 ++ promptMid2) ++ q ++ promptSuffix := by
  have hs : search dist [] n fs = [] := by
    cases fs with
    | none => simp [search, collQuery]
    | some srcs =>
      by_cases h : srcs = [] <;> simp [search, collQuery, h]
  refine ⟨hs, ?_, ?_, ?_⟩ <;> rw [hs] <;>
    simp [chatFilter, context_text, full_prompt, List.intercalate, List.append_assoc]

/-- C8: passing an explicit `0` for `chunk_size` or `overlap` is
replaced by the instance default via truthiness, so an explicit
overlap of `0` reproduces the default overlapping behaviour and does
not produce non-overlapping chunks. -/
theorem chunk_args_zero_truthiness :
    (∀ (selfCsize selfOv : Int) (text : List Char),
      chunk_text_method selfCsize selfOv text (some 0) (some 0) =
        chunk_text_method selfCsize selfOv text none none) ∧
    chunk_text_method 4 2 "abcdef".toList none (some 0) =
      chunk_text "abcdef".toList 4 2 ∧
    chunk_text_method 4 2 "abcdef".toList none (some 0) ≠
      chunk_text "abcdef".toList 4 0 := by
  refine ⟨fun selfCsize selfOv text => ?_, by decide, by decide⟩
  simp [chunk_text_method, pyOrInt]

/-- Counterexample to C2 as stated: on the single-space input the
chunker appends the stripped-to-empty window, so the output is the
one-element sequence containing the empty string, not the empty
sequence. -/
theorem chunker_empty_window_cex :
    chunk_text [' '] 2 1 = some [[]] ∧
    chunk_text [' '] 2 1 ≠ some [] := by decide

/-- A list all of whose characters are whitespace strips to nothing. -/
theorem pyStrip_of_all_space (s : List Char) (h : ∀ c ∈ s, pyIsSpace c) :
    pyStrip s = [] := by
  have h1 : s.dropWhile pyIsSpace = [] := List.dropWhile_eq_nil_iff.mpr h
  simp [pyStrip, h1]

/-- Every character of a Python slice comes from the sliced list. -/
theorem mem_of_mem_pySlice {c : Char} {s : List Char} {i j : Int}
    (h : c ∈ pySlice s i j) : c ∈ s :=
  List.mem_of_mem_take (List.mem_of_mem_drop h)

/-- C2 amended: every element the chunker emits is a
whitespace-trimmed window of the input, but windows are appended
unconditionally, even when the trimmed window is empty; the empty
input yields an empty sequence, and an entirely-whitespace input
yields a sequence of empty strings. -/
theorem chunker_trims_every_window :
    (∀ csize ov : Int, chunk_text [] csize ov = some []) ∧
    (∀ (text : List Char) (csize ov start : Int) (fuel : Nat)
      (l : List (List Char)),
      chunkTextGo text csize ov start fuel = some l →
      ∀ x ∈ l, ∃ st : Int, x = pyStrip (pySlice text st (st + csize))) ∧
    (∀ text : List Char, (∀ c ∈ text, pyIsSpace c) →
      ∀ (csize ov : Int) (l : List (List Char)),
        chunk_text text csize ov = some l → ∀ x ∈ l, x = []) := by
  have hwin : ∀ (text : List Char) (csize ov : Int) (fuel : Nat) (start : Int)
      (l : List (List Char)),
      chunkTextGo text csize ov start fuel = some l →
      ∀ x ∈ l, ∃ st : Int, x = pyStrip (pySlice text st (st + csize)) := by
    intro text csize ov fuel
    induction fuel with
    | zero =>
      intro start l hl x hx
      by_cases h : start < (text.length : Int) <;> simp [chunkTextGo, h] at hl
      subst hl; simp at hx
    | succ n ih =>
      intro start l hl x hx
      by_cases h : start < (text.length : Int)
      · simp only [chunkTextGo, if_pos h] at hl
        cases hgo : chunkTextGo text csize ov (start + (csize - ov)) n with
        | none => rw [hgo] at hl; simp at hl
        | some rest =>
          rw [hgo] at hl
          simp only [Option.some.injEq] at hl
          subst hl
          rcases List.mem_cons.mp hx with hx | hx
          · exact ⟨start, hx⟩
          · exact ih (start + (csize - ov)) rest hgo x hx
      · simp only [chunkTextGo, if_neg h, Option.some.injEq] at hl
        subst hl; simp at hx
  refine ⟨?_, fun text csize ov start fuel l => hwin text csize ov fuel start l, ?_⟩
  · intro csize ov
    simp [chunk_text, chunkTextGo]
  · intro text hsp csize ov l hl x hx
    obtain ⟨st, hst⟩ := hwin text csize ov (text.length + 1) 0 l hl x hx
    rw [hst]
    exact pyStrip_of_all_space _ (fun c hc => hsp c (mem_of_mem_pySlice hc))

/-- Witness for C2's amended theorem: the empty input, a concrete
trimmed window, and a tab-only input whose single chunk is empty. -/
theorem chunker_trims_every_window_witness :
    chunk_text [] 3 1 = some [] ∧
    (∃ st : Int, ['a'] = pyStrip (pySlice " a".toList st (st + 4))) ∧
    ([] : List Char) = [] :=
  ⟨chunker_trims_every_window.1 3 1,
   chunker_trims_every_window.2.1 " a".toList 4 1 0 3 [['a']] (by decide) ['a'] (by decide),
   chunker_trims_every_window.2.2 ['\t'] (by decide) 2 1 [[]] (by decide) [] (by decide)⟩

/-! ### Ingestion counting -/

/-- The chunks of one page that survive ingestion: non-empty after
trimming and with a truthy embedding. -/
def storedChunkCount (emb : List Char → List Int) (chunks : List (List Char)) : Nat :=
  chunks.countP (fun c => decide (c ≠ [] ∧ emb c ≠ []))

/-- The records stored for one page are exactly its surviving chunks. -/
theorem pageRecords_length (emb : List Char → List Int) (docId : String)
    (base : Option Meta) (pageNum : Int) :
    ∀ (chunks : List (List Char)) (i : Nat) (counter : Int),
      (pageRecords emb docId base pageNum chunks i counter).1.length =
        storedChunkCount emb chunks := by
  intro chunks
  induction chunks with
  | nil => intro i counter; simp [pageRecords, storedChunkCount]
  | cons c rest ih =>
    intro i counter
    by_cases hc : c = []
    · simp [pageRecords, hc, storedChunkCount, List.countP_cons, ih]
    · by_cases he : emb c = []
      · simp [pageRecords, hc, he, storedChunkCount, List.countP_cons, ih]
      · simp [pageRecords, hc, he, storedChunkCount, List.countP_cons, ih]

/-- With a terminating chunker configuration the page loop always
succeeds, and the collected records number the per-page survivors. -/
theorem ingestLoop_some (emb : List Char → List Int) (csize ov : Int)
    (docId : String) (base : Option Meta) (hov : ov < csize) :
    ∀ (fd : List PageData) (counter : Int),
      ∃ res, ingestLoop emb csize ov docId base fd counter = some res ∧
        res.1.length = (fd.map (fun p =>
          storedChunkCount emb ((chunk_text p.text csize ov).getD []))).sum := by
  intro fd
  induction fd with
  | nil => intro counter; exact ⟨([], counter), rfl, by simp⟩
  | cons p rest ih =>
    intro counter
    have hsome : (chunk_text p.text csize ov).isSome :=
      chunkTextGo_isSome p.text csize ov (by omega) (p.text.length + 1) 0 (by push_cast; omega)
    obtain ⟨chunks, hchunks⟩ := Option.isSome_iff_exists.mp hsome
    obtain ⟨res2, hres2, hlen2⟩ := ih (pageRecords emb docId base p.page chunks 0 counter).2
    refine ⟨((pageRecords emb docId base p.page chunks 0 counter).1 ++ res2.1, res2.2), ?_, ?_⟩
    · simp only [ingestLoop, hchunks, hres2]
    · simp [pageRecords_length, hlen2, hchunks]

/-- C4: ingestion returns exactly the number of chunks appended to the
store, and that number is the sum over pages of the chunks that are
non-empty after trimming and whose embedding is truthy. -/
theorem ingest_returns_stored_count (emb : List Char → List Int) (csize ov : Int)
    (store : List Record) (fd : List PageData) (docId : String) (base : Option Meta)
    (hov : ov < csize) :
    ∃ (n : Nat) (newStore : List Record),
      ingest_document emb csize ov store fd docId base = some (n, newStore) ∧
      n = (fd.map (fun p =>
        storedChunkCount emb ((chunk_text p.text csize ov).getD []))).sum ∧
      newStore.length = store.length + n := by
  obtain ⟨res, hres, hlen⟩ := ingestLoop_some emb csize ov docId base hov fd 0
  by_cases hnil : res.1 = []
  · refine ⟨0, store, ?_, ?_, by simp⟩
    · simp [ingest_document, hres, hnil]
    · rw [← hlen, hnil]; simp
  · refine ⟨res.1.length, store ++ res.1, ?_, hlen, by simp⟩
    simp [ingest_document, hres, hnil]

/-- The embedding stub used by the concrete ingestion witnesses. -/
def embOne : List Char → List Int := fun _ => [1]

/-- Witness for C4: a one-page document chunked with size 5, overlap 1
stores both of its chunks. -/
theorem ingest_returns_stored_count_witness :
    ∃ (n : Nat) (newStore : List Record),
      ingest_document embOne 5 1 [] [PageData.mk "hello".toList 1] "doc" none =
        some (n, newStore) ∧
      n = ([PageData.mk "hello".toList 1].map (fun p =>
        storedChunkCount embOne ((chunk_text p.text 5 1).getD []))).sum ∧
      newStore.length = ([] : List Record).length + n :=
  ingest_returns_stored_count embOne 5 1 [] [PageData.mk "hello".toList 1] "doc" none
    (by decide)

/-- A page none of whose chunks survives contributes no records and
leaves the chunk counter unchanged. -/
theorem pageRecords_of_no_survivor (emb : List Char → List Int) (docId : String)
    (base : Option Meta) (pageNum : Int) :
    ∀ (chunks : List (List Char)) (i : Nat) (counter : Int),
      (∀ c ∈ chunks, c = [] ∨ emb c = []) →
      pageRecords emb docId base pageNum chunks i counter = ([], counter) := by
  intro chunks
  induction chunks with
  | nil => intro i counter _; rfl
  | cons c rest ih =>
    intro i counter h
    have hrest : ∀ d ∈ rest, d = [] ∨ emb d = [] := fun d hd => h d (by simp [hd])
    by_cases hc : c = []
    · simp only [pageRecords, if_pos hc]
      exact ih (i + 1) counter hrest
    · rcases h c (by simp) with hc2 | he
      · exact absurd hc2 hc
      · simp only [pageRecords, if_neg hc, if_pos he]
        exact ih (i + 1) counter hrest

/-- C9: when no chunk survives (each chunk is empty after trimming or
has a falsy embedding), ingestion returns 0 and does not touch the
store. -/
theorem ingest_no_survivors_is_noop (emb : List Char → List Int) (csize ov : Int)
    (store : List Record) (fd : List PageData) (docId : String) (base : Option Meta)
    (hov : ov < csize)
    (h : ∀ p ∈ fd, ∀ c ∈ (chunk_text p.text csize ov).getD [], c = [] ∨ emb c = []) :
    ingest_document emb csize ov store fd docId base = some (0, store) := by
  have hloop : ∀ (fdx : List PageData) (counter : Int),
      (∀ p ∈ fdx, ∀ c ∈ (chunk_text p.text csize ov).getD [], c = [] ∨ emb c = []) →
      ingestLoop emb csize ov docId base fdx counter = some ([], counter) := by
    intro fdx
    induction fdx with
    | nil => intro counter _; rfl
    | cons p rest ih =>
      intro counter hx
      have hsome : (chunk_text p.text csize ov).isSome :=
        chunkTextGo_isSome p.text csize ov (by omega) (p.text.length + 1) 0 (by push_cast; omega)
      obtain ⟨chunks, hchunks⟩ := Option.isSome_iff_exists.mp hsome
      have hdead : ∀ c ∈ chunks, c = [] ∨ emb c = [] := by
        have := hx p (by simp)
        rwa [hchunks] at this
      have hpage := pageRecords_of_no_survivor emb docId base p.page chunks 0 counter hdead
      simp [ingestLoop, hchunks, hpage,
        ih counter (fun q hq => hx q (by simp [hq]))]
  simp [ingest_document, hloop fd 0 h]

/-- Witness for C9: a whitespace-only page produces only empty chunks,
so ingestion returns 0 on the empty store and leaves it empty. -/
theorem ingest_no_survivors_is_noop_witness :
    ingest_document embOne 2 1 [] [PageData.mk "   ".toList 1] "doc" none =
      some (0, []) :=
  ingest_no_survivors_is_noop embOne 2 1 [] [PageData.mk "   ".toList 1] "doc" none
    (by decide) (by decide)

/-! ### Dict-merge lemmas and metadata claims -/

/-- Looking up the key just merged yields the merged value. -/
theorem metaLookup_dictSet_self (m : Meta) (k : String) (v : MetaVal) :
    metaLookup (dictSet m k v) k = some v := by
  induction m with
  | nil => simp [dictSet, metaLookup]
  | cons p rest ih =>
    by_cases h : p.1 = k
    · simp [dictSet, h, metaLookup]
    · simpa [dictSet, h, metaLookup] using ih

/-- Merging one key leaves the lookup of any other key unchanged. -/
theorem metaLookup_dictSet_ne (m : Meta) (k k2 : String) (v : MetaVal)
    (h : k2 ≠ k) : metaLookup (dictSet m k v) k2 = metaLookup m k2 := by
  have hk : ¬ (k = k2) := fun he => h he.symm
  induction m with
  | nil => simp [dictSet, metaLookup, hk]
  | cons p rest ih =>
    by_cases hp : p.1 = k
    · have hp2 : ¬ (p.1 = k2) := by rw [hp]; exact hk
      simp [dictSet, hp, metaLookup, hp2, hk]
    · by_cases hp2 : p.1 = k2
      · simp [dictSet, hp, metaLookup, hp2, h]
      · simpa [dictSet, hp, metaLookup, hp2, h, hk] using ih

/-- The three computed fields of a stored chunk's metadata read back
their computed values whatever the caller-supplied base was. -/
theorem mkChunkMeta_lookups (base : Option Meta) (ci : Int) (docId : String)
    (pg : Int) :
    metaLookup (mkChunkMeta base ci docId pg) "source" = some (.str docId) ∧
    metaLookup (mkChunkMeta base ci docId pg) "page" = some (.int pg) ∧
    metaLookup (mkChunkMeta base ci docId pg) "chunk_index" = some (.int ci) := by
  unfold mkChunkMeta
  refine ⟨?_, metaLookup_dictSet_self _ _ _, ?_⟩
  · rw [metaLookup_dictSet_ne _ _ _ _ (by decide)]
    exact metaLookup_dictSet_self _ _ _
  · rw [metaLookup_dictSet_ne _ _ _ _ (by decide),
      metaLookup_dictSet_ne _ _ _ _ (by decide)]
    exact metaLookup_dictSet_self _ _ _

/-- Every record a page contributes has an id built from the document
id and page number, and metadata built by the computed merge. -/
theorem pageRecords_mem (emb : List Char → List Int) (docId : String)
    (base : Option Meta) (pageNum : Int) :
    ∀ (chunks : List (List Char)) (i : Nat) (counter : Int) (r : Record),
      r ∈ (pageRecords emb docId base pageNum chunks i counter).1 →
      (∃ j : Nat, r.id = chunkId docId pageNum j) ∧
      ∃ ci : Int, r.metadata = mkChunkMeta base ci docId pageNum := by
  intro chunks
  induction chunks with
  | nil => intro i counter r hr; simp [pageRecords] at hr
  | cons c rest ih =>
    intro i counter r hr
    by_cases hc : c = []
    · exact ih (i + 1) counter r (by simpa [pageRecords, hc] using hr)
    · by_cases he : emb c = []
      · exact ih (i + 1) counter r (by simpa [pageRecords, hc, he] using hr)
      · simp only [pageRecords, if_neg hc, if_neg he] at hr
        rcases List.mem_cons.mp hr with hr | hr
        · subst hr; exact ⟨⟨i, rfl⟩, counter, rfl⟩
        · exact ih (i + 1) (counter + 1) r hr

/-- Every record the page loop collects comes from some page, with the
computed id and metadata shape. -/
theorem ingestLoop_mem (emb : List Char → List Int) (csize ov : Int)
    (docId : String) (base : Option Meta) :
    ∀ (fd : List PageData) (counter : Int) (res : List Record × Int),
      ingestLoop emb csize ov docId base fd counter = some res →
      ∀ r ∈ res.1, ∃ pg : Int,
        (∃ j : Nat, r.id = chunkId docId pg j) ∧
        ∃ ci : Int, r.metadata = mkChunkMeta base ci docId pg := by
  intro fd
  induction fd with
  | nil =>
    intro counter res h r hr
    simp only [ingestLoop, Option.some.injEq] at h
    subst h
    simp at hr
  | cons p rest ih =>
    intro counter res h r hr
    cases hchunks : chunk_text p.text csize ov with
    | none => simp [ingestLoop, hchunks] at h
    | some chunks =>
      simp only [ingestLoop, hchunks] at h
      cases hres2 : ingestLoop emb csize ov docId base rest
          (pageRecords emb docId base p.page chunks 0 counter).2 with
      | none => rw [hres2] at h; simp at h
      | some res2 =>
        rw [hres2] at h
        simp only [Option.some.injEq] at h
        subst h
        rcases List.mem_append.mp hr with hr | hr
        · exact ⟨p.page, pageRecords_mem emb docId base p.page chunks 0 counter r hr⟩
        · exact ih _ res2 hres2 r hr

/-- C10: the computed metadata fields `source`, `page` and
`chunk_index` are merged last and override any same-keyed entry of the
caller-supplied base metadata, in every stored chunk's metadata. -/
theorem computed_metadata_wins :
    (∀ (base : Option Meta) (ci : Int) (docId : String) (pg : Int),
      metaLookup (mkChunkMeta base ci docId pg) "source" = some (.str docId) ∧
      metaLookup (mkChunkMeta base ci docId pg) "page" = some (.int pg) ∧
      metaLookup (mkChunkMeta base ci docId pg) "chunk_index" = some (.int ci)) ∧
    (∀ (emb : List Char → List Int) (csize ov : Int) (docId : String)
      (base : Option Meta) (fd : List PageData) (counter : Int)
      (res : List Record × Int),
      ingestLoop emb csize ov docId base fd counter = some res →
      ∀ r ∈ res.1,
        metaLookup r.metadata "source" = some (.str docId) ∧
        (∃ pg : Int, metaLookup r.metadata "page" = some (.int pg)) ∧
        (∃ ci : Int, metaLookup r.metadata "chunk_index" = some (.int ci))) := by
  refine ⟨mkChunkMeta_lookups, ?_⟩
  intro emb csize ov docId base fd counter res h r hr
  obtain ⟨pg, _, ci, hmeta⟩ := ingestLoop_mem emb csize ov docId base fd counter res h r hr
  rw [hmeta]
  obtain ⟨h1, h2, h3⟩ := mkChunkMeta_lookups base ci docId pg
  exact ⟨h1, ⟨pg, h2⟩, ⟨ci, h3⟩⟩

/-- A base metadata that tries to spoof the `source` field. -/
def baseEvil : Meta := [("source", MetaVal.str "evil")]

/-- The record stored when ingesting the page "hi" for document "d"
over `baseEvil`: the computed fields overrode the base. -/
def recDemo : Record :=
  Record.mk "d_p1_0" [1] "hi".toList
    [("source", MetaVal.str "d"), ("chunk_index", MetaVal.int 0),
     ("page", MetaVal.int 1)]

/-- Witness for C10: ingesting over a base metadata that presets
`source` still stores the computed document id. -/
theorem computed_metadata_wins_witness :
    metaLookup recDemo.metadata "source" = some (MetaVal.str "d") ∧
    (∃ pg : Int, metaLookup recDemo.metadata "page" = some (MetaVal.int pg)) ∧
    (∃ ci : Int, metaLookup recDemo.metadata "chunk_index" = some (MetaVal.int ci)) :=
  computed_metadata_wins.2 embOne 5 1 "d" (some baseEvil)
    [PageData.mk "hi".toList 1] 0 ([recDemo], 1) (by decide) recDemo (by decide)

/-- Deleting a source that no stored chunk carries is the identity on
the store and removes nothing. -/
theorem delete_document_of_absent (store : List Record) (src : String)
    (h : ∀ r ∈ store, metaLookup r.metadata "source" ≠ some (.str src)) :
    delete_document store src = (0, store) := by
  have hget : collGetBySource store src = [] := by
    simp only [collGetBySource, List.filter_eq_nil_iff, decide_eq_true_eq]
    exact h
  simp [delete_document, hget]

/-- C6: deleting a source that no stored chunk carries returns 0 and
leaves the store unchanged (a no-op success, not an error). -/
theorem delete_missing_source_noop (store : List Record) (src : String)
    (h : ∀ r ∈ store, metaLookup r.metadata "source" ≠ some (.str src)) :
    delete_document store src = (0, store) :=
  delete_document_of_absent store src h

/-- A pre-existing record belonging to another document. -/
def recOther : Record :=
  Record.mk "other.txt_p1_0" [1] "x".toList
    [("chunk_index", MetaVal.int 0), ("source", MetaVal.str "other.txt"),
     ("page", MetaVal.int 1)]

/-- Witness for C6: deleting the never-ingested "missing.txt" from a
store holding another document returns 0 and changes nothing. -/
theorem delete_missing_source_noop_witness :
    delete_document [recOther] "missing.txt" = (0, [recOther]) :=
  delete_missing_source_noop [recOther] "missing.txt" (by decide)

/-! ### Ingest-then-delete round trip -/

/-- A document id carried by no stored chunk does not appear among the
sources listed by `list_documents`. -/
theorem not_mem_list_documents (store : List Record) (docId : String)
    (hsrc : ∀ r ∈ store, metaLookup r.metadata "source" ≠ some (.str docId))
    (hunk : docId ≠ "unknown") :
    MetaVal.str docId ∉ (list_documents store).map DocSummary.source := by
  intro hmem
  simp only [list_documents] at hmem
  rw [List.mem_map] at hmem
  obtain ⟨d, hd, hds⟩ := hmem
  have hd2 := (List.mergeSort_perm _ _).mem_iff.mp hd
  rw [List.mem_map] at hd2
  obtain ⟨kk, hkk, hkd⟩ := hd2
  have hkk2 : kk = MetaVal.str docId := by rw [← hds, ← hkd]
  rw [List.mem_dedup, List.mem_map] at hkk
  obtain ⟨m, hm, hmk⟩ := hkk
  rw [List.mem_map] at hm
  obtain ⟨r, hr, hrm⟩ := hm
  have : sourceKey r.metadata = MetaVal.str docId := by rw [hrm, hmk, hkk2]
  rw [sourceKey] at this
  cases hl : metaLookup r.metadata "source" with
  | none => rw [hl] at this; simp at this; exact hunk this.symm
  | some v =>
    rw [hl] at this
    simp at this
    exact hsrc r hr (by rw [hl, this])

/-- C5: ingesting a document into a store that holds nothing for its
identifier and then immediately deleting that identifier removes
exactly the chunks ingestion stored, returns their count, and leaves
the identifier absent from `list_documents`. -/
theorem ingest_then_delete_roundtrip (emb : List Char → List Int) (csize ov : Int)
    (store : List Record) (fd : List PageData) (docId : String) (base : Option Meta)
    (n : Nat) (newStore : List Record)
    (hsrc : ∀ r ∈ store, metaLookup r.metadata "source" ≠ some (.str docId))
    (hid : ∀ r ∈ store, ∀ (pg : Int) (j : Nat), r.id ≠ chunkId docId pg j)
    (hunk : docId ≠ "unknown")
    (hing : ingest_document emb csize ov store fd docId base = some (n, newStore)) :
    delete_document newStore docId = (n, store) ∧
    MetaVal.str docId ∉
      (list_documents (delete_document newStore docId).2).map DocSummary.source := by
  cases hloop : ingestLoop emb csize ov docId base fd 0 with
  | none => rw [ingest_document, hloop] at hing; simp at hing
  | some res =>
    have hing2 : (if res.1 = [] then some (0, store)
        else some (res.1.length, store ++ res.1)) = some (n, newStore) := by
      rw [ingest_document, hloop] at hing
      exact hing
    clear hing
    by_cases hnil : res.1 = []
    · rw [if_pos hnil] at hing2
      simp only [Option.some.injEq, Prod.mk.injEq] at hing2
      obtain ⟨hn, hst⟩ := hing2
      have hdel : delete_document newStore docId = (0, store) := by
        rw [← hst]; exact delete_document_of_absent store docId hsrc
      rw [hdel, ← hn]
      exact ⟨rfl, not_mem_list_documents store docId hsrc hunk⟩
    · rw [if_neg hnil] at hing2
      simp only [Option.some.injEq, Prod.mk.injEq] at hing2
      obtain ⟨hn, hst⟩ := hing2
      have hmem := ingestLoop_mem emb csize ov docId base fd 0 res hloop
      have hsrcnew : ∀ r ∈ res.1,
          metaLookup r.metadata "source" = some (.str docId) := by
        intro r hr
        obtain ⟨pg, _, ci, hm⟩ := hmem r hr
        rw [hm]
        exact (mkChunkMeta_lookups base ci docId pg).1
      have hidnew : ∀ r ∈ res.1, ∃ (pg : Int) (j : Nat), r.id = chunkId docId pg j := by
        intro r hr
        obtain ⟨pg, ⟨j, hj⟩, _⟩ := hmem r hr
        exact ⟨pg, j, hj⟩
      have hget : collGetBySource newStore docId = res.1 := by
        rw [← hst, collGetBySource, List.filter_append]
        have h1 : store.filter
            (fun r => decide (metaLookup r.metadata "source" = some (.str docId))) = [] := by
          simp only [List.filter_eq_nil_iff, decide_eq_true_eq]
          exact hsrc
        have h2 : res.1.filter
            (fun r => decide (metaLookup r.metadata "source" = some (.str docId))) = res.1 := by
          rw [List.filter_eq_self]
          intro r hr
          simpa using hsrcnew r hr
        rw [h1, h2, List.nil_append]
      have hidsne : ¬ (collGetBySource newStore docId).map (fun r => r.id) = [] := by
        rw [hget]
        simpa using hnil
      have hstore2 : ∀ r ∈ store, ¬ r.id ∈ res.1.map (fun r => r.id) := by
        intro r hr hin
        rw [List.mem_map] at hin
        obtain ⟨r2, hr2, hr2id⟩ := hin
        obtain ⟨pg, j, hj⟩ := hidnew r2 hr2
        exact hid r hr pg j (by rw [← hr2id, hj])
      have hdelids : collDeleteIds newStore ((collGetBySource newStore docId).map
          (fun r => r.id)) = store := by
        rw [hget, ← hst, collDeleteIds, List.filter_append]
        have h1 : store.filter
            (fun r => decide (¬ r.id ∈ res.1.map (fun r => r.id))) = store := by
          rw [List.filter_eq_self]
          intro r hr
          simpa using hstore2 r hr
        have h2 : res.1.filter
            (fun r => decide (¬ r.id ∈ res.1.map (fun r => r.id))) = [] := by
          simp only [List.filter_eq_nil_iff, decide_eq_true_eq, not_not]
          intro r hr
          exact List.mem_map_of_mem (fun r => r.id) hr
        rw [h1, h2, List.append_nil]
      have hdel : delete_document newStore docId = (n, store) := by
        rw [delete_document]
        simp only [if_neg hidsne]
        rw [hdelids, hget, List.length_map, hn]
      rw [hdel]
      exact ⟨rfl, not_mem_list_documents store docId hsrc hunk⟩

/-- First chunk stored when ingesting the one-page document "hello"
as "doc" with chunk size 5 and overlap 1. -/
def recHello0 : Record :=
  Record.mk "doc_p1_0" [1] "hello".toList
    [("chunk_index", MetaVal.int 0), ("source", MetaVal.str "doc"),
     ("page", MetaVal.int 1)]

/-- Second chunk stored by that same ingestion. -/
def recHello1 : Record :=
  Record.mk "doc_p1_1" [1] "o".toList
    [("chunk_index", MetaVal.int 1), ("source", MetaVal.str "doc"),
     ("page", MetaVal.int 1)]

/-- Witness for C5: ingest "hello" as "doc" into the empty store, then
delete "doc": both stored chunks are removed, the count is 2, and
"doc" is no longer listed. -/
theorem ingest_then_delete_roundtrip_witness :
    delete_document [recHello0, recHello1] "doc" = (2, []) ∧
    MetaVal.str "doc" ∉
      (list_documents (delete_document [recHello0, recHello1] "doc").2).map
        DocSummary.source :=
  ingest_then_delete_roundtrip embOne 5 1 [] [PageData.mk "hello".toList 1] "doc"
    none 2 [recHello0, recHello1] (by simp) (by simp) (by decide) (by decide)

end RagSkeleton
